import Mathlib

/-!
Verification of the natural-language specification of `vba2zip.py`, a
Vimball archive converter written in Python 2, against a shallow Lean
embedding of its code.

Python byte strings are modelled as `List Char` (one `Char` per byte),
Python `int`s as `Nat` (arbitrary precision, like Python 2 `int`/`long`),
and exceptions as `Except`/`Option` results.  The CPython 2.7 string-keyed
hash table backing the reader's `files`/`dirs_set` dicts is modelled
explicitly, because its iteration order (ascending slot index) is
observable in the order of yielded members.
-/

namespace Vba2Zip

/-! ### Bit operations

Python's `x & ~m` on nonnegative ints clears the bits of `m`; this is
`Nat.ldiff`, re-implemented with fuel so that the kernel can evaluate it
on concrete inputs. -/

def andNotF : Nat → Nat → Nat → Nat
  | 0, _, _ => 0
  | f+1, x, y => if x = 0 then 0 else 2 * andNotF f (x/2) (y/2) + (x % 2) * (1 - y % 2)

/-- Python `x & ~y` for nonnegative `x`, `y`: clears in `x` the bits set in `y`. -/
def andNot (x y : Nat) : Nat := andNotF x x y

/-! ### Archive members

`ArchiveMember.__init__` reads the process umask and the current local
time; these environment inputs are passed explicitly as `Env`. -/

/-- The first six fields of `time.localtime`: year, month, day, hour, minute, second. -/
abbrev TimeSix := Nat × Nat × Nat × Nat × Nat × Nat

structure Env where
  umask : Nat
  now : TimeSix
deriving DecidableEq

/-- The dynamic type of `ArchiveMember.mtime`: `__init__` stores
`time.localtime(time.time())[:6]` (six whole-second fields), while
`DirectoryReader.__iter__` overwrites it with the raw `st_mtime` scalar,
a Python float, modelled as a rational. -/
inductive Mtime
  | fields (t : TimeSix)
  | stamp (q : ℚ)
deriving DecidableEq

structure ArchiveMember where
  name : List Char
  data : Option (List Char)
  perm : Nat
  mtime : Mtime
deriving DecidableEq

/-- `ArchiveMember.__init__`: `data = None`, `perm = 0666 & ~umask`,
`mtime = time.localtime(time.time())[:6]`. -/
def mkArchiveMember (env : Env) (name : List Char) : ArchiveMember :=
  { name := name, data := none, perm := andNot 0o666 env.umask, mtime := .fields env.now }

/-- `__getattribute__` for `isdir`: `perm & 040000 == 040000`. -/
def ArchiveMember.isdir (m : ArchiveMember) : Bool := m.perm &&& 0o40000 == 0o40000

/-- `__setattr__` for `isdir`: `perm |= 040111` when set true,
`perm &= ~040111` when set false. -/
def ArchiveMember.setIsdir (m : ArchiveMember) (v : Bool) : ArchiveMember :=
  if v then { m with perm := m.perm ||| 0o40111 }
  else { m with perm := andNot m.perm 0o40111 }

instance {ε α : Type} [DecidableEq ε] [DecidableEq α] : DecidableEq (Except ε α) := fun x y =>
  match x, y with
  | .ok a, .ok b => if h : a = b then .isTrue (by rw [h]) else .isFalse (by simp [h])
  | .error a, .error b => if h : a = b then .isTrue (by rw [h]) else .isFalse (by simp [h])
  | .ok _, .error _ => .isFalse (by simp)
  | .error _, .ok _ => .isFalse (by simp)

/-! ### File/stream primitives -/

/-- Python `file.readline()` on a byte stream: the next line including its
trailing newline; at end of stream the remainder (possibly `[]`). -/
def readline : List Char → List Char × List Char
  | [] => ([], [])
  | c :: rest =>
    if c = '\n' then ([c], rest)
    else
      let p := readline rest
      (c :: p.1, p.2)

/-- The successive `readline` results of a stream (fueled; fuel
`s.length + 1` is always enough since every nonempty line consumes input). -/
def lineList : Nat → List Char → List (List Char)
  | 0, _ => []
  | f+1, s =>
    let p := readline s
    if p.1 = [] then [] else p.1 :: lineList f p.2

/-- Python `str.split('\n')`. -/
def splitOnNl : List Char → List (List Char)
  | [] => [[]]
  | c :: rest =>
    if c = '\n' then [] :: splitOnNl rest
    else (splitOnNl rest).modifyHead (c :: ·)

/-- Python 2 `str` whitespace, as stripped by `str.strip()`. -/
def pyIsSpace (c : Char) : Bool :=
  c = ' ' ∨ c = '\t' ∨ c = '\n' ∨ c = '\r' ∨ c = '\x0b' ∨ c = '\x0c'

/-- Python `str.strip()`. -/
def pyStrip (l : List Char) : List Char :=
  ((l.dropWhile pyIsSpace).reverse.dropWhile pyIsSpace).reverse

/-- Python `str.rstrip("\n")`. -/
def rstripNl (l : List Char) : List Char := (l.reverse.dropWhile (· = '\n')).reverse

/-- Universal-newline translation performed by mode `'rU'`:
`"\r\n"` and `"\r"` both become `"\n"`. -/
def unlTranslate : List Char → List Char
  | [] => []
  | '\r' :: '\n' :: rest => '\n' :: unlTranslate rest
  | '\r' :: rest => '\n' :: unlTranslate rest
  | c :: rest => c :: unlTranslate rest

/-- Python 2 `str.isdigit()`: nonempty and all ASCII digits. -/
def pyIsDigit (l : List Char) : Bool := !l.isEmpty && l.all (·.isDigit)

/-- Python `int()` of a digit string (the code only applies it after
`isdigit` succeeds). -/
def decValAux : List Char → Nat → Nat
  | [], acc => acc
  | c :: rest, acc => decValAux rest (10 * acc + (c.toNat - 48))

def decVal (l : List Char) : Nat := decValAux l 0

/-- Little-endian decimal digits of `n` (fueled, fuel `≥ n` suffices). -/
def decDigitsF : Nat → Nat → List Nat
  | 0, _ => []
  | f+1, n => if n = 0 then [] else (n % 10) :: decDigitsF f (n / 10)

/-- Python `str()` of a nonnegative int. -/
def natToDec (n : Nat) : List Char :=
  if n = 0 then ['0']
  else ((decDigitsF n n).map (fun d => Nat.digitChar d)).reverse

/-! ### The CPython 2.7 string-keyed dict

`VimballReader.__iter__` stores file blocks in plain Python dicts
(`files`, `dirs_set`); their iteration order is the ascending slot order
of CPython's open-addressing hash table, which the claims about member
order make observable.  The table is modelled explicitly: `strHash` is
CPython 2.7's 64-bit string hash, and probing follows `lookdict`
(`i = 5*i + perturb + 1`, `perturb >>= 5`).  The probe carries fuel; on
the (CPython-unreachable) fuel exhaustion or full table the model falls
back to a linear scan, which preserves the dict's map semantics.  Because
the parse loop's dict updates do not feed back into parsing, the loop's
dicts equal a fold of inserts over the block list, which is how
`runVimballReader` below computes them. -/

def strHashLoop : List Char → Nat → Nat
  | [], x => x
  | c :: rest, x => strHashLoop rest (((1000003 * x) % 2 ^ 64) ^^^ c.toNat)

/-- CPython 2.7 `string_hash` on a 64-bit build, as a bit pattern in `[0, 2^64)`. -/
def strHash (s : List Char) : Nat :=
  match s with
  | [] => 0
  | c :: _ =>
    let x := strHashLoop s ((c.toNat <<< 7) % 2 ^ 64)
    let x := x ^^^ (s.length % 2 ^ 64)
    if x = 2 ^ 64 - 1 then 2 ^ 64 - 2 else x

/-- A hash table: a list of slots, each empty or holding a key-value pair. -/
abbrev Slots (α : Type) := List (Option (List Char × α))

/-- The entries in slot order: exactly `dict.items()` (no deletions, so no
dummy slots exist). -/
def entriesOf {α : Type} (s : Slots α) : List (List Char × α) := s.filterMap id

/-- `dict.keys()`. -/
def keysOf {α : Type} (s : Slots α) : List (List Char) := (entriesOf s).map Prod.fst

def slotHoldsKey {α : Type} (key : List Char) : Option (List Char × α) → Bool
  | some p => p.1 = key
  | none => false

/-- CPython's probe loop: visit slot `i & mask`; stop at an empty slot or
at `key`; else `i = 5*i + perturb + 1`, `perturb >>= 5`. -/
def probeAux {α : Type} (s : Slots α) (key : List Char) : Nat → Nat → Nat → Option Nat
  | _, _, 0 => none
  | i, perturb, f+1 =>
    let j := i &&& (s.length - 1)
    match s.get? j with
    | some none => some j
    | some (some p) => if p.1 = key then some j else probeAux s key (5*i + perturb + 1) (perturb >>> 5) f
    | none => none

def firstNoneIdx {α : Type} : Slots α → Option Nat
  | [] => none
  | none :: _ => some 0
  | some _ :: t => (firstNoneIdx t).map (· + 1)

/-- The slot where a new key is placed: CPython's probe (fuel
`size + 16` covers the 13 perturb rounds plus a full LCG cycle on any
table that is not overfull); the linear-scan fallback is unreachable in
CPython-faithful states. -/
def probeSlot {α : Type} (s : Slots α) (key : List Char) : Option Nat :=
  let h := strHash key
  match probeAux s key (h &&& (s.length - 1)) h (s.length + 16) with
  | some j => some j
  | none => firstNoneIdx s

def placeNew {α : Type} (s : Slots α) (key : List Char) (v : α) : Slots α :=
  match probeSlot s key with
  | some j => s.set j (some (key, v))
  | none => s ++ [some (key, v)]

def findKeyIdx {α : Type} : Slots α → List Char → Option Nat
  | [], _ => none
  | o :: t, key => if slotHoldsKey key o then some 0 else (findKeyIdx t key).map (· + 1)

/-- CPython's `dictresize` table size: the smallest power of two `≥ 8`
strictly greater than `minused`. -/
def growSizeAux : Nat → Nat → Nat → Nat
  | _, cur, 0 => cur
  | minused, cur, f+1 => if minused < cur then cur else growSizeAux minused (2*cur) f

def growSize (minused : Nat) : Nat := growSizeAux minused 8 (minused + 1)

/-- `dictresize`: re-insert all entries, in slot order, into a fresh table. -/
def dictResize {α : Type} (s : Slots α) : Slots α :=
  let es := entriesOf s
  let used := es.length
  let minused := (if used > 50000 then 2 else 4) * used
  es.foldl (fun t e => placeNew t e.1 e.2) (List.replicate (growSize minused) none)

/-- `d[key] = v`: update in place when the key exists, else place the new
pair at the probed slot and resize when more than two thirds full. -/
def dictInsert {α : Type} (s : Slots α) (key : List Char) (v : α) : Slots α :=
  match findKeyIdx s key with
  | some j => s.set j (some (key, v))
  | none =>
    let s' := placeNew s key v
    if 3 * (entriesOf s').length ≥ 2 * s'.length then dictResize s' else s'

/-- `{}`: `PyDict_MINSIZE = 8` empty slots. -/
def emptyDict {α : Type} : Slots α := List.replicate 8 none

def insertAll {α : Type} (ps : List (List Char × α)) : Slots α :=
  ps.foldl (fun s p => dictInsert s p.1 p.2) emptyDict

/-- First-match association lookup, used to state the dict's map
semantics (`alookup k ps.reverse` is thus the LAST binding of `k` in
`ps`, matching repeated `d[k] = v` assignments). -/
def alookup {α : Type} (k : List Char) : List (List Char × α) → Option α
  | [] => none
  | p :: t => if p.1 = k then some p.2 else alookup k t

/-- The keys of an association list. -/
def dkeys {α : Type} (l : List (List Char × α)) : List (List Char) := l.map Prod.fst

/-! ### The Vimball reader -/

/-- `os.path.dirname` (posixpath): everything up to the last `'/'`, with
trailing slashes stripped unless the head is empty or all slashes. -/
def pyDirname (p : List Char) : List Char :=
  let i := match p.reverse.findIdx? (· = '/') with
           | some k => p.length - k
           | none => 0
  let head := p.take i
  if head.isEmpty || head.all (· = '/') then head
  else (head.reverse.dropWhile (· = '/')).reverse

/-- The three `raise` sites in `VimballReader.__iter__`: a block header
line lacking the `"\t[[[1\n"` marker, a count line that is not all
digits, and end of stream before the declared line count was read. -/
inductive VimErr
  | badVimball
  | badCount
  | truncated
deriving DecidableEq

def vimFileMarker : List Char := "\t[[[1\n".toList

/-- The preamble loop: `while line != "" and line != "finish\n": line = readline()`. -/
def skipPreamble : Nat → List Char → List Char
  | 0, s => s
  | f+1, s =>
    let p := readline s
    if p.1 = [] ∨ p.1 = "finish\n".toList then p.2
    else skipPreamble f p.2

/-- `lines += self.archive.readline()` repeated `numlines` times, where an
empty read raises (`none`). -/
def readNLines : Nat → List Char → Option (List Char × List Char)
  | 0, s => some ([], s)
  | n+1, s =>
    let p := readline s
    if p.1 = [] then none
    else match readNLines n p.2 with
         | some q => some (p.1 ++ q.1, q.2)
         | none => none

/-- The block loop of `VimballReader.__iter__`, returning the
`(name, content)` pairs in the order their blocks appear.  The loop's
per-block dict updates do not influence parsing, so the final `files` and
`dirs_set` dicts are recovered below as folds over this list. -/
def parseBlocks : Nat → List Char → Except VimErr (List (List Char × List Char))
  | 0, _ => .ok []
  | f+1, s =>
    let p := readline s
    if p.1 = [] then .ok []
    else if vimFileMarker.isSuffixOf p.1 then
      let name := p.1.take (p.1.length - 6)
      let q := readline p.2
      let count := rstripNl q.1
      if pyIsDigit count then
        match readNLines (decVal count) q.2 with
        | some r =>
          match parseBlocks f r.2 with
          | .ok bs => .ok ((name, r.1) :: bs)
          | .error e => .error e
        | none => .error .truncated
      else .error .badCount
    else .error .badVimball

/-- `VimballReader.__iter__` (also `GzippedVimballReader.__iter__`, on the
decompressed stream): all yields happen after the block loop finishes, so
an exception yields no members at all; the sorted unique parent
directories come first as directory members, then the file members in
dict iteration order. -/
def runVimballReader (env : Env) (input : List Char) : Except VimErr (List ArchiveMember) :=
  let rest := skipPreamble (input.length + 1) input
  match parseBlocks (rest.length + 1) rest with
  | .error e => .error e
  | .ok bs =>
    let files : Slots (List Char) := insertAll bs
    let dirsSet : Slots Unit := insertAll (bs.map (fun p => (pyDirname p.1, ())))
    let dirs := List.insertionSort (· ≤ ·) (keysOf dirsSet)
    .ok (dirs.map (fun d => (mkArchiveMember env d).setIsdir true)
         ++ (entriesOf files).map (fun p => { mkArchiveMember env p.1 with data := some p.2 }))

/-! ### The Vimball writer -/

def vimballHeaderText : List Char :=
  ("\" Vimball Archiver by Charles E. Campbell, Jr., Ph.D.\nUseVimball\nfinish\n").toList

structure VimballWriterSt where
  headerWritten : Bool
  out : List Char
deriving DecidableEq

def countNl (l : List Char) : Nat := l.count '\n'

/-- The bytes `VimballWriter.add` appends for one non-directory member of
content `d`: header line, newline count, content (with a newline appended
when missing). -/
def vimballBlock (name d : List Char) : List Char :=
  let data := if d.getLast? = some '\n' then d else d ++ ['\n']
  name ++ vimFileMarker ++ natToDec (countNl data) ++ ['\n'] ++ data

/-- `VimballWriter.add`: writes the three-line header on the first call
(even for a skipped directory member), skips directories, and otherwise
appends the member's block.  `none` models the `AttributeError` Python
raises when a file member's `data` is still `None`. -/
def vimballAdd (st : VimballWriterSt) (m : ArchiveMember) : Option VimballWriterSt :=
  let st := if st.headerWritten then st
            else { headerWritten := true, out := st.out ++ vimballHeaderText }
  if m.isdir then some st
  else match m.data with
    | none => none
    | some d => some { st with out := st.out ++ vimballBlock m.name d }

def vimballWriteAll (ms : List ArchiveMember) : Option VimballWriterSt :=
  ms.foldlM vimballAdd ⟨false, []⟩

/-- The concatenation of the blocks `add` emits for the non-directory
members of a list, in order. -/
def vimballBlocksOf (ms : List ArchiveMember) : List Char :=
  ((ms.filter (fun m => !m.isdir)).map (fun m => vimballBlock m.name (m.data.getD []))).flatten

/-- A file member of a directory tree: a fresh `ArchiveMember` carrying
the file's name and byte content. -/
def fileMember (env : Env) (p : List Char × List Char) : ArchiveMember :=
  { mkArchiveMember env p.1 with data := some p.2 }

/-- The byte form of a list of well-formed file blocks (each content
already newline-terminated): header line, count line, content, repeated. -/
def blockListBytes (bs : List (List Char × List Char)) : List Char :=
  (bs.map (fun p => p.1 ++ vimFileMarker ++ natToDec (countNl p.2) ++ ['\n'] ++ p.2)).flatten

/-! ### The directory reader -/

/-- The fields of `os.stat` the code uses.  In Python 2.5+ `st_mtime` is a
float (seconds since the epoch, possibly fractional), modelled as `ℚ`. -/
structure StatBuf where
  st_mode : Nat
  st_mtime : ℚ
deriving DecidableEq

/-- What `DirectoryReader.__init__` gathered from `os.walk` plus the
`stat`/`read` results `__iter__` will see: the relative directory names,
and the relative file names with their contents. -/
structure DirListing where
  dirnames : List (List Char × StatBuf)
  filenames : List (List Char × StatBuf × List Char)

/-- `DirectoryReader.__iter__`: directory members first (perm and mtime
copied raw from `stat`), then file members (likewise, plus the file
bytes). -/
def runDirectoryReader (env : Env) (l : DirListing) : List ArchiveMember :=
  l.dirnames.map (fun p =>
    { mkArchiveMember env p.1 with perm := p.2.st_mode, mtime := .stamp p.2.st_mtime })
  ++ l.filenames.map (fun p =>
    let st := p.2.fst
    { mkArchiveMember env p.1 with
      perm := st.st_mode
      mtime := .stamp st.st_mtime
      data := some p.2.snd })

/-! ### Format auto-detection -/

inductive ReaderKind
  | directory
  | vimball
  | gzippedVimball
deriving DecidableEq

/-- `VimballReader.is_supported`: open in `'rU'` mode, read 4096 chars,
split on newlines, strip each line, test `'UseVimball' in lines`. -/
def vimballIsSupported (content : List Char) : Bool :=
  let lines := (splitOnNl ((unlTranslate content).take 4096)).map pyStrip
  lines.any (· = "UseVimball".toList)

/-- `GzippedVimballReader.is_supported`: first two raw bytes are the gzip
magic `'\x1f\x8b'`. -/
def gzipIsSupported (content : List Char) : Bool :=
  content.take 2 = ['\x1f', '\x8b']

/-- The `for Reader in READERS` loop with
`READERS = [DirectoryReader, VimballReader, GzippedVimballReader]`:
first reader whose `is_supported` holds; `none` models the
`IOError("Input format unsupported")`.  `DirectoryReader.is_supported`
is `os.path.isdir(path)`, passed in as `isDir`. -/
def detectReader (isDir : Bool) (content : List Char) : Option ReaderKind :=
  if isDir then some .directory
  else if vimballIsSupported content then some .vimball
  else if gzipIsSupported content then some .gzippedVimball
  else none

/-! ### Shared concrete inputs -/

/-- A fixed environment: umask `0o022`, so fresh members get perm `0o644`. -/
def env0 : Env := ⟨0o022, (2009, 1, 1, 0, 0, 0)⟩

def mem4 : ArchiveMember := mkArchiveMember env0 ['f']

/-- A Vimball whose first block header line lacks the `"\t[[[1"` marker. -/
def vbBadHeader : List Char := "finish\nbadline\n".toList

/-- A Vimball whose count line is `"abc"`. -/
def vbBadCount : List Char := "finish\nf\t[[[1\nabc\n".toList

/-- A Vimball declaring 3 content lines with only 1 before end of stream. -/
def vbTruncated : List Char := "finish\nf\t[[[1\n3\nonly\n".toList

/-- A file starting with the gzip magic whose content also contains a
`UseVimball` line. -/
def gzMagicUseVb : List Char := "\x1f\x8b\nUseVimball\n".toList

/-- A Vimball whose file blocks appear in the order `b`, then `a`. -/
def vbOutOfOrder : List Char := "finish\nb\t[[[1\n1\nx\na\t[[[1\n1\ny\n".toList

/-- A Vimball with a single top-level file block (name without `/`). -/
def vbTopLevel : List Char := "finish\nf\t[[[1\n1\nx\n".toList

/-- A directory listing with a single file whose `st_mtime` is fractional. -/
def listing7 : DirListing :=
  ⟨[], [("f.txt".toList, ⟨0o100644, (1234567890.5 : ℚ)⟩, "hi".toList)]⟩

/-! ### Supporting lemmas -/

theorem testBit_andNotF (f : Nat) : ∀ x y i : Nat, x ≤ f →
    (andNotF f x y).testBit i = ((x.testBit i) && !(y.testBit i)) := by
  induction f with
  | zero =>
    intro x y i h
    interval_cases x
    simp [andNotF]
  | succ f ih =>
    intro x y i h
    rw [andNotF]
    by_cases hx : x = 0
    · simp [hx]
    rw [if_neg hx]
    have hx2 : x % 2 = 0 ∨ x % 2 = 1 := Nat.mod_two_eq_zero_or_one x
    have hy2 : y % 2 = 0 ∨ y % 2 = 1 := Nat.mod_two_eq_zero_or_one y
    have hb1 : x % 2 * (1 - y % 2) ≤ 1 := by
      rcases hx2 with h2 | h2 <;> simp [h2]
    cases i with
    | zero =>
      have hb : (2 * andNotF f (x/2) (y/2) + x % 2 * (1 - y % 2)) % 2
          = x % 2 * (1 - y % 2) := by omega
      simp only [Nat.testBit_zero, hb]
      rcases hx2 with h2 | h2 <;> rcases hy2 with h3 | h3 <;> rw [h2, h3] <;> rfl
    | succ i =>
      simp only [Nat.testBit_succ]
      have hdiv : (2 * andNotF f (x/2) (y/2) + x % 2 * (1 - y % 2)) / 2
          = andNotF f (x/2) (y/2) := by omega
      rw [hdiv, ih (x/2) (y/2) i (by omega)]

theorem testBit_andNot (x y i : Nat) :
    (andNot x y).testBit i = ((x.testBit i) && !(y.testBit i)) :=
  testBit_andNotF x x y i (Nat.le_refl x)

theorem andNot_eq_ldiff (x y : Nat) : andNot x y = Nat.ldiff x y := by
  apply Nat.eq_of_testBit_eq
  intro i
  rw [testBit_andNot, Nat.testBit_ldiff]

/-- `0o40111` is exactly the directory bit (14) and the three execute
bits (0, 3, 6). -/
theorem testBit_dirMask (i : Nat) :
    Nat.testBit 0o40111 i = decide (i ∈ [0, 3, 6, 14]) := by
  by_cases h : i ≤ 14
  · interval_cases i <;> decide
  · rw [Nat.testBit_eq_false_of_lt (by calc 0o40111 < 2 ^ 15 := by norm_num
        _ ≤ 2 ^ i := Nat.pow_le_pow_right (by norm_num) (by omega))]
    simp
    omega

/-- `0o111` is exactly the three execute bits. -/
theorem testBit_execMask (i : Nat) :
    Nat.testBit 0o111 i = decide (i ∈ [0, 3, 6]) := by
  by_cases h : i ≤ 6
  · interval_cases i <;> decide
  · rw [Nat.testBit_eq_false_of_lt (by calc 0o111 < 2 ^ 7 := by norm_num
        _ ≤ 2 ^ i := Nat.pow_le_pow_right (by norm_num) (by omega))]
    simp
    omega

theorem readline_append (s : List Char) : (readline s).1 ++ (readline s).2 = s := by
  induction s with
  | nil => rfl
  | cons c rest ih =>
    rw [readline]
    by_cases h : c = '\n'
    · simp [h]
    · simpa [h] using ih

theorem readline_fst_nil_iff (s : List Char) : (readline s).1 = [] ↔ s = [] := by
  cases s with
  | nil => simp [readline]
  | cons c rest =>
    rw [readline]
    by_cases h : c = '\n' <;> simp [h]

theorem readline_snd_lt (s : List Char) (h : s ≠ []) : (readline s).2.length < s.length := by
  have happ := readline_append s
  have hne : (readline s).1 ≠ [] := by
    intro h1
    exact h ((readline_fst_nil_iff s).mp h1)
  have := congrArg List.length happ
  simp only [List.length_append] at this
  have : (readline s).1.length ≥ 1 := by
    cases h1 : (readline s).1 with
    | nil => exact absurd h1 hne
    | cons a l => simp
  omega

theorem skipPreamble_of_no_finish (f : Nat) :
    ∀ s : List Char, s.length < f → "finish\n".toList ∉ lineList f s →
    skipPreamble f s = [] := by
  induction f with
  | zero => intro s h _; omega
  | succ f ih =>
    intro s hlen hnf
    rw [skipPreamble]
    by_cases hnil : (readline s).1 = []
    · have hs : s = [] := (readline_fst_nil_iff s).mp hnil
      subst hs
      simp [readline, hnil]
    · have hsne : s ≠ [] := by
        intro h
        subst h
        exact hnil rfl
      have hlt := readline_snd_lt s hsne
      have hline : lineList (f+1) s = (readline s).1 :: lineList f (readline s).2 := by
        rw [lineList, if_neg hnil]
      rw [hline] at hnf
      have hfin : (readline s).1 ≠ "finish\n".toList := by
        intro h
        exact hnf (h ▸ List.mem_cons_self _ _)
      rw [if_neg ?_]
      · exact ih (readline s).2 (by omega) (fun hm => hnf (List.mem_cons_of_mem _ hm))
      · rintro (h | h)
        · exact hnil h
        · exact hfin h

theorem testBit_dirBit (i : Nat) : Nat.testBit 0o40000 i = decide (i = 14) := by
  by_cases h : i ≤ 14
  · interval_cases i <;> decide
  · rw [Nat.testBit_eq_false_of_lt (by calc 0o40000 < 2 ^ 15 := by norm_num
        _ ≤ 2 ^ i := Nat.pow_le_pow_right (by norm_num) (by omega))]
    simp
    omega

theorem isdir_iff_testBit (m : ArchiveMember) : m.isdir = true ↔ m.perm.testBit 14 = true := by
  rw [ArchiveMember.isdir, beq_iff_eq]
  constructor
  · intro h
    have := congrArg (fun n => Nat.testBit n 14) h
    simpa [Nat.testBit_land, testBit_dirBit] using this
  · intro h
    apply Nat.eq_of_testBit_eq
    intro i
    rw [Nat.testBit_land, testBit_dirBit]
    by_cases hi : i = 14
    · subst hi
      simp [h]
    · simp [hi]

/-! ### Claim C4 -/

/-- C4 as stated is false: after `isdir = True` then `isdir = False`, the
directory bit 14 — one of the "other bits" the claim says stay untouched —
has been cleared as well: the result is `0o644`, not the claim's
predicted `0o40644` (only the execute bits removed). -/
theorem setIsdir_false_clears_dirbit_counterexample :
    ((mem4.setIsdir true).setIsdir false).perm = 0o644
  ∧ andNot (mem4.setIsdir true).perm 0o111 = 0o40644
  ∧ (0o644 : Nat) ≠ 0o40644 := by decide

/-- C4 (amended): setting `isdir` to true sets exactly the three execute
bits and the directory bit; setting it to false clears exactly those same
four bits (the three execute bits AND the directory bit), leaving all
other bits untouched; and `isdir` reads as the `0o40000` bit of `perm`. -/
theorem setIsdir_bit_semantics (m : ArchiveMember) :
    (∀ i, ((m.setIsdir true).perm.testBit i)
        = (m.perm.testBit i || decide (i ∈ [0, 3, 6, 14])))
  ∧ (∀ i, ((m.setIsdir false).perm.testBit i)
        = (m.perm.testBit i && !decide (i ∈ [0, 3, 6, 14])))
  ∧ (m.isdir = true ↔ m.perm.testBit 14 = true) := by
  refine ⟨fun i => ?_, fun i => ?_, isdir_iff_testBit m⟩
  · rw [ArchiveMember.setIsdir, if_pos rfl]
    rw [show ({ m with perm := m.perm ||| 0o40111 } : ArchiveMember).perm
        = m.perm ||| 0o40111 from rfl]
    rw [Nat.testBit_lor, testBit_dirMask]
  · rw [ArchiveMember.setIsdir, if_neg (by simp)]
    rw [show ({ m with perm := andNot m.perm 0o40111 } : ArchiveMember).perm
        = andNot m.perm 0o40111 from rfl]
    rw [testBit_andNot, testBit_dirMask]

/-! ### Claim C5 -/

/-- C5: the reader fails (yielding no members, since all yields happen
after the block loop) on exactly the three malformed shapes: a header
line without the `"\t[[[1\n"` marker, a non-digit count line such as
`"abc"`, and end of stream before the declared count of content lines;
every run either succeeds or reports one of these three errors. -/
theorem vimball_reader_errors :
    runVimballReader env0 vbBadHeader = .error .badVimball
  ∧ runVimballReader env0 vbBadCount = .error .badCount
  ∧ runVimballReader env0 vbTruncated = .error .truncated
  ∧ ∀ (env : Env) (input : List Char),
      (∃ ms, runVimballReader env input = .ok ms)
    ∨ runVimballReader env input = .error .badVimball
    ∨ runVimballReader env input = .error .badCount
    ∨ runVimballReader env input = .error .truncated := by
  refine ⟨by decide, by decide, by decide, fun env input => ?_⟩
  cases h : runVimballReader env input with
  | ok ms => exact .inl ⟨ms, rfl⟩
  | error e => cases e with
    | badVimball => exact .inr (.inl rfl)
    | badCount => exact .inr (.inr (.inl rfl))
    | truncated => exact .inr (.inr (.inr rfl))

/-! ### Claim C6 -/

/-- C6 as stated is false: a file beginning with the gzip magic
`0x1f 0x8b` is NOT always classified as gzip-Vimball — the plain-text
test runs first (`READERS = [DirectoryReader, VimballReader,
GzippedVimballReader]`), so a magic-prefixed file that also contains a
`UseVimball` line is classified as plain-text Vimball. -/
theorem detect_gzip_counterexample :
    detectReader false gzMagicUseVb = some .vimball
  ∧ some ReaderKind.vimball ≠ some ReaderKind.gzippedVimball := by decide

/-- C6 (amended): a gzip-magic-prefixed file is classified as
gzip-Vimball provided the path is not a directory and no line of its
first 4096 chars (after universal-newline translation) strips to
`UseVimball`; otherwise an earlier reader in the fixed priority order
claims it. -/
theorem detect_gzip_amended (content : List Char)
    (hmagic : content.take 2 = ['\x1f', '\x8b'])
    (hlines : ∀ l ∈ splitOnNl ((unlTranslate content).take 4096),
      pyStrip l ≠ "UseVimball".toList) :
    detectReader false content = some .gzippedVimball := by
  have hvb : vimballIsSupported content = false := by
    rw [vimballIsSupported]
    simp only [List.any_eq_false, decide_eq_true_eq, List.mem_map]
    rintro x ⟨l, hl, rfl⟩
    exact hlines l hl
  rw [detectReader, if_neg (by simp), hvb, gzipIsSupported, hmagic]
  simp

theorem detect_gzip_amended_witness :
    (['\x1f', '\x8b', 'X'].take 2 = ['\x1f', '\x8b']
    ∧ (∀ l ∈ splitOnNl ((unlTranslate ['\x1f', '\x8b', 'X']).take 4096),
        pyStrip l ≠ "UseVimball".toList))
  ∧ detectReader false ['\x1f', '\x8b', 'X'] = some .gzippedVimball :=
  ⟨⟨by decide, by decide⟩, detect_gzip_amended ['\x1f', '\x8b', 'X'] (by decide) (by decide)⟩

/-! ### Claim C7 -/

/-- C7 is violated by the code: `DirectoryReader.__iter__` stores the raw
`st_mtime` float scalar into `member.mtime`, so members it yields do not
carry a whole-second six-field timestamp at all (and `ZipWriter`, which
assigns `member.mtime` to `ZipInfo.date_time`, requires a six-tuple). -/
theorem directory_reader_mtime_scalar :
    (runDirectoryReader env0 listing7).map (fun m => m.mtime)
      = [Mtime.stamp (1234567890.5 : ℚ)]
  ∧ ∀ t : TimeSix, Mtime.stamp (1234567890.5 : ℚ) ≠ Mtime.fields t :=
  ⟨rfl, fun _ h => Mtime.noConfusion h⟩

/-! ### Claim C9 -/

/-- C9: when end of stream is reached before any line equals
`"finish\n"`, the reader yields zero members and raises no error: the
preamble loop exits on the empty read and the block loop immediately
breaks. -/
theorem reader_no_finish_ok_empty (env : Env) (input : List Char)
    (h : "finish\n".toList ∉ lineList (input.length + 1) input) :
    runVimballReader env input = .ok [] := by
  have hskip := skipPreamble_of_no_finish (input.length + 1) input (by omega) h
  rw [runVimballReader, hskip]
  rfl

theorem reader_no_finish_ok_empty_witness :
    "finish\n".toList ∉ lineList ("hello\nworld".toList.length + 1) "hello\nworld".toList
  ∧ runVimballReader env0 "hello\nworld".toList = .ok [] :=
  ⟨by decide, reader_no_finish_ok_empty env0 "hello\nworld".toList (by decide)⟩

/-! ### Dict lemmas: the hash table model behaves as a finite map -/

theorem entriesOf_cons_some {α : Type} (e : List Char × α) (t : Slots α) :
    entriesOf (some e :: t) = e :: entriesOf t := by
  simp [entriesOf]

theorem entriesOf_cons_none {α : Type} (t : Slots α) :
    entriesOf (none :: t) = entriesOf t := by
  simp [entriesOf]

theorem mem_entriesOf_of_get {α : Type} (s : Slots α) (j : Nat) (e : List Char × α)
    (h : s.get? j = some (some e)) : e ∈ entriesOf s := by
  induction s generalizing j with
  | nil => simp at h
  | cons o t ih =>
    cases j with
    | zero =>
      simp only [List.get?_cons_zero, Option.some_inj] at h
      subst h
      rw [entriesOf_cons_some]
      exact List.mem_cons_self _ _
    | succ j =>
      simp only [List.get?_cons_succ] at h
      have hmem := ih j h
      cases o with
      | none => rwa [entriesOf_cons_none]
      | some p => rw [entriesOf_cons_some]; exact List.mem_cons_of_mem _ hmem

theorem alookup_eq_none_iff {α : Type} (k : List Char) (l : List (List Char × α)) :
    alookup k l = none ↔ k ∉ dkeys l := by
  induction l with
  | nil => simp [alookup, dkeys]
  | cons p t ih =>
    rw [alookup]
    by_cases h : p.1 = k
    · have hk : k ∈ dkeys (p :: t) := by
        rw [dkeys, List.map_cons, ← h]
        exact List.mem_cons_self _ _
      rw [if_pos h]
      exact iff_of_false (by simp) (not_not_intro hk)
    · simp only [if_neg h, ih, dkeys, List.map_cons, List.mem_cons]
      constructor
      · intro hn hm
        rcases hm with hm | hm
        · exact h hm.symm
        · exact hn hm
      · intro hn hm
        exact hn (.inr hm)

theorem mem_of_alookup_eq_some {α : Type} (k : List Char) (v : α)
    (l : List (List Char × α)) (h : alookup k l = some v) : (k, v) ∈ l := by
  induction l with
  | nil => simp [alookup] at h
  | cons p t ih =>
    rw [alookup] at h
    by_cases hk : p.1 = k
    · rw [if_pos hk, Option.some_inj] at h
      subst h
      subst hk
      exact List.mem_cons_self _ _
    · rw [if_neg hk] at h
      exact List.mem_cons_of_mem _ (ih h)

theorem alookup_eq_some_of_mem {α : Type} (k : List Char) (v : α)
    (l : List (List Char × α)) (hnd : (dkeys l).Nodup) (h : (k, v) ∈ l) :
    alookup k l = some v := by
  induction l with
  | nil => simp at h
  | cons p t ih =>
    rw [dkeys, List.map_cons, List.nodup_cons] at hnd
    rw [alookup]
    rcases List.mem_cons.mp h with h | h
    · subst h
      simp
    · have hk : p.1 ≠ k := by
        intro hk
        exact hnd.1 (hk ▸ (List.mem_map.mpr ⟨(k, v), h, rfl⟩))
      rw [if_neg hk]
      exact ih hnd.2 h

theorem alookup_congr_perm {α : Type} (l1 l2 : List (List Char × α))
    (hnd : (dkeys l1).Nodup) (hp : l1.Perm l2) (k : List Char) :
    alookup k l1 = alookup k l2 := by
  have hnd2 : (dkeys l2).Nodup := (hp.map Prod.fst).nodup_iff.mp hnd
  cases h : alookup k l1 with
  | some v =>
    exact (alookup_eq_some_of_mem k v l2 hnd2 (hp.mem_iff.mp (mem_of_alookup_eq_some k v l1 h))).symm
  | none =>
    have : k ∉ dkeys l2 := by
      intro hm
      exact (alookup_eq_none_iff k l1).mp h ((hp.map Prod.fst).mem_iff.mpr hm)
    exact ((alookup_eq_none_iff k l2).mpr this).symm

theorem alookup_append {α : Type} (k : List Char) (l1 l2 : List (List Char × α)) :
    alookup k (l1 ++ l2) = match alookup k l1 with
      | some v => some v
      | none => alookup k l2 := by
  induction l1 with
  | nil => simp [alookup]
  | cons p t ih =>
    rw [List.cons_append, alookup, alookup]
    by_cases h : p.1 = k
    · simp [h]
    · simp only [if_neg h]
      exact ih

theorem keysOf_eq_dkeys {α : Type} (s : Slots α) : keysOf s = dkeys (entriesOf s) := rfl

theorem entriesOf_set_none {α : Type} (s : Slots α) (j : Nat) (e : List Char × α)
    (h : s.get? j = some none) : (entriesOf (s.set j (some e))).Perm (e :: entriesOf s) := by
  induction s generalizing j with
  | nil => simp at h
  | cons o t ih =>
    cases j with
    | zero =>
      simp only [List.get?_cons_zero, Option.some_inj] at h
      subst h
      rw [List.set_cons_zero, entriesOf_cons_some, entriesOf_cons_none]
    | succ j =>
      simp only [List.get?_cons_succ] at h
      rw [List.set_cons_succ]
      cases o with
      | none =>
        rw [entriesOf_cons_none, entriesOf_cons_none]
        exact ih j h
      | some p =>
        rw [entriesOf_cons_some, entriesOf_cons_some]
        exact ((ih j h).cons p).trans (List.Perm.swap e p _)

theorem dkeys_entriesOf_set_some {α : Type} (s : Slots α) (j : Nat)
    (k : List Char) (v v0 : α) (h : s.get? j = some (some (k, v0))) :
    dkeys (entriesOf (s.set j (some (k, v)))) = dkeys (entriesOf s) := by
  induction s generalizing j with
  | nil => simp at h
  | cons o t ih =>
    cases j with
    | zero =>
      simp only [List.get?_cons_zero, Option.some_inj] at h
      subst h
      rw [List.set_cons_zero, entriesOf_cons_some, entriesOf_cons_some, dkeys, dkeys]
      simp
    | succ j =>
      simp only [List.get?_cons_succ] at h
      rw [List.set_cons_succ]
      cases o with
      | none => rw [entriesOf_cons_none, entriesOf_cons_none]; exact ih j h
      | some p =>
        rw [entriesOf_cons_some, entriesOf_cons_some, dkeys, dkeys, List.map_cons,
          List.map_cons]
        exact congrArg (p.1 :: ·) (ih j h)

theorem alookup_entriesOf_set_some {α : Type} (s : Slots α) (j : Nat)
    (k : List Char) (v v0 : α) (h : s.get? j = some (some (k, v0)))
    (hnd : (dkeys (entriesOf s)).Nodup) (k' : List Char) :
    alookup k' (entriesOf (s.set j (some (k, v))))
      = if k = k' then some v else alookup k' (entriesOf s) := by
  induction s generalizing j with
  | nil => simp at h
  | cons o t ih =>
    cases j with
    | zero =>
      simp only [List.get?_cons_zero, Option.some_inj] at h
      subst h
      rw [List.set_cons_zero, entriesOf_cons_some, entriesOf_cons_some, alookup, alookup]
      by_cases hk : k = k' <;> simp [hk]
    | succ j =>
      simp only [List.get?_cons_succ] at h
      rw [List.set_cons_succ]
      cases o with
      | none =>
        rw [entriesOf_cons_none, entriesOf_cons_none] at *
        exact ih j h hnd
      | some p =>
        rw [entriesOf_cons_some] at hnd
        rw [dkeys, List.map_cons, List.nodup_cons] at hnd
        have hkmem : k ∈ dkeys (entriesOf t) :=
          List.mem_map.mpr ⟨(k, v0), mem_entriesOf_of_get t j _ h, rfl⟩
        have hpk : p.1 ≠ k := fun he => hnd.1 (he ▸ hkmem)
        rw [entriesOf_cons_some, entriesOf_cons_some, alookup, alookup]
        by_cases hp : p.1 = k'
        · have hk : k ≠ k' := fun he => hpk (he ▸ hp)
          rw [if_pos hp, if_neg hk, if_pos hp]
        · rw [if_neg hp, if_neg hp, ih j h hnd.2]

theorem probeAux_empty_slot {α : Type} (s : Slots α) (key : List Char)
    (hkey : key ∉ keysOf s) :
    ∀ (f i p j : Nat), probeAux s key i p f = some j → s.get? j = some none := by
  intro f
  induction f with
  | zero => intro i p j h; simp [probeAux] at h
  | succ f ih =>
    intro i p j h
    rw [probeAux] at h
    split at h
    · next hg =>
        cases h
        exact hg
    · next q hg =>
        by_cases hq : q.1 = key
        · rw [if_pos hq] at h
          exact absurd (keysOf_eq_dkeys s ▸ List.mem_map.mpr
            ⟨q, mem_entriesOf_of_get s _ q hg, hq⟩) hkey
        · rw [if_neg hq] at h
          exact ih _ _ _ h
    · exact absurd h (by simp)

theorem firstNoneIdx_spec {α : Type} (s : Slots α) :
    ∀ j, firstNoneIdx s = some j → s.get? j = some none := by
  induction s with
  | nil => intro j h; simp [firstNoneIdx] at h
  | cons o t ih =>
    intro j h
    cases o with
    | none =>
      rw [firstNoneIdx] at h
      simp only [Option.some_inj] at h
      subst h
      rfl
    | some p =>
      rw [firstNoneIdx] at h
      rcases Option.map_eq_some'.mp h with ⟨j', hj', rfl⟩
      exact ih j' hj'

theorem placeNew_entries {α : Type} (s : Slots α) (key : List Char) (v : α)
    (hkey : key ∉ keysOf s) :
    (entriesOf (placeNew s key v)).Perm ((key, v) :: entriesOf s) := by
  rw [placeNew, probeSlot]
  rcases hp : probeAux s key (strHash key &&& (s.length - 1)) (strHash key) (s.length + 16)
    with _ | j
  · rcases hf : firstNoneIdx s with _ | j
    · rw [show entriesOf (s ++ [some (key, v)]) = entriesOf s ++ [(key, v)] by
        simp [entriesOf]]
      exact List.perm_append_singleton _ _
    · exact entriesOf_set_none s j _ (firstNoneIdx_spec s j hf)
  · exact entriesOf_set_none s j _ (probeAux_empty_slot s key hkey _ _ _ j hp)

theorem findKeyIdx_some {α : Type} (s : Slots α) (k : List Char) :
    ∀ j, findKeyIdx s k = some j → ∃ v, s.get? j = some (some (k, v)) := by
  induction s with
  | nil => intro j h; simp [findKeyIdx] at h
  | cons o t ih =>
    intro j h
    rw [findKeyIdx] at h
    by_cases ho : slotHoldsKey k o = true
    · rw [if_pos ho] at h
      cases h
      cases o with
      | none => simp [slotHoldsKey] at ho
      | some p =>
        rw [slotHoldsKey, decide_eq_true_eq] at ho
        exact ⟨p.2, by rw [List.get?_cons_zero, ← ho]⟩
    · rw [if_neg ho] at h
      rcases Option.map_eq_some'.mp h with ⟨j', hj', rfl⟩
      rcases ih j' hj' with ⟨v, hv⟩
      exact ⟨v, by rwa [List.get?_cons_succ]⟩

theorem findKeyIdx_none {α : Type} (s : Slots α) (k : List Char)
    (h : findKeyIdx s k = none) : k ∉ keysOf s := by
  induction s with
  | nil => simp [keysOf, entriesOf]
  | cons o t ih =>
    rw [findKeyIdx] at h
    by_cases ho : slotHoldsKey k o = true
    · rw [if_pos ho] at h
      exact absurd h (by simp)
    · rw [if_neg ho, Option.map_eq_none'] at h
      have ht := ih h
      cases o with
      | none => rwa [keysOf_eq_dkeys, entriesOf_cons_none]
      | some p =>
        rw [keysOf_eq_dkeys, entriesOf_cons_some, dkeys, List.map_cons]
        intro hm
        rcases List.mem_cons.mp hm with hm | hm
        · rw [slotHoldsKey, decide_eq_true_eq] at ho
          exact ho hm.symm
        · exact ht hm

theorem entriesOf_replicate_none {α : Type} (n : Nat) :
    entriesOf (List.replicate n none : Slots α) = [] := by
  induction n with
  | zero => rfl
  | succ n ih => rw [List.replicate_succ, entriesOf_cons_none, ih]

theorem foldl_placeNew_entries {α : Type} :
    ∀ (es : List (List Char × α)) (t : Slots α), (dkeys es).Nodup →
    (∀ k ∈ dkeys es, k ∉ keysOf t) →
    (entriesOf (es.foldl (fun t e => placeNew t e.1 e.2) t)).Perm (es ++ entriesOf t) := by
  intro es
  induction es with
  | nil => intro t _ _; simp
  | cons e es ih =>
    intro t hnd hdisj
    rw [dkeys, List.map_cons, List.nodup_cons] at hnd
    have hkey : e.1 ∉ keysOf t := hdisj e.1 (by rw [dkeys, List.map_cons]; exact List.mem_cons_self _ _)
    have hplace := placeNew_entries t e.1 e.2 hkey
    have hdisj' : ∀ k ∈ dkeys es, k ∉ keysOf (placeNew t e.1 e.2) := by
      intro k hk hmem
      rw [keysOf_eq_dkeys] at hmem
      have := (hplace.map Prod.fst).mem_iff.mp hmem
      rw [List.map_cons] at this
      rcases List.mem_cons.mp this with hh | hh
      · exact hnd.1 (hh ▸ hk)
      · exact hdisj k (by rw [dkeys, List.map_cons]; exact List.mem_cons_of_mem _ hk) hh
    refine (ih (placeNew t e.1 e.2) hnd.2 hdisj').trans ?_
    refine (List.Perm.append_left es hplace).trans ?_
    exact List.perm_middle

theorem dictResize_entries {α : Type} (s : Slots α)
    (hnd : (dkeys (entriesOf s)).Nodup) :
    (entriesOf (dictResize s)).Perm (entriesOf s) := by
  rw [dictResize]
  have h := foldl_placeNew_entries (entriesOf s)
    (List.replicate (growSize ((if (entriesOf s).length > 50000 then 2 else 4) * (entriesOf s).length)) none)
    hnd (by intro k _ hm; rw [keysOf_eq_dkeys, entriesOf_replicate_none] at hm; simp [dkeys] at hm)
  rw [entriesOf_replicate_none, List.append_nil] at h
  exact h

theorem dictInsert_spec {α : Type} (s : Slots α) (k : List Char) (v : α)
    (hnd : (dkeys (entriesOf s)).Nodup) :
    (dkeys (entriesOf (dictInsert s k v))).Nodup
  ∧ ∀ k', alookup k' (entriesOf (dictInsert s k v))
        = if k = k' then some v else alookup k' (entriesOf s) := by
  rcases hf : findKeyIdx s k with _ | j
  · -- new key: placed at an empty slot (resizing if needed)
    have hkey : k ∉ keysOf s := findKeyIdx_none s k hf
    have hplace := placeNew_entries s k v hkey
    have hnd' : (dkeys (entriesOf (placeNew s k v))).Nodup := by
      rw [dkeys]
      refine ((hplace.map Prod.fst).nodup_iff).mpr ?_
      rw [List.map_cons, List.nodup_cons]
      exact ⟨by rwa [keysOf_eq_dkeys] at hkey, hnd⟩
    have hlook : ∀ k', alookup k' (entriesOf (placeNew s k v))
        = if k = k' then some v else alookup k' (entriesOf s) := by
      intro k'
      rw [alookup_congr_perm _ _ hnd' hplace k', alookup]
    simp only [dictInsert, hf]
    by_cases hr : 3 * (entriesOf (placeNew s k v)).length ≥ 2 * (placeNew s k v).length
    · rw [if_pos hr]
      have hres := dictResize_entries (placeNew s k v) hnd'
      have hndres : (dkeys (entriesOf (dictResize (placeNew s k v)))).Nodup := by
        rw [dkeys]
        exact ((hres.map Prod.fst).nodup_iff).mpr hnd'
      refine ⟨hndres, fun k' => ?_⟩
      rw [alookup_congr_perm _ _ hndres hres k']
      exact hlook k'
    · rw [if_neg hr]
      exact ⟨hnd', hlook⟩
  · -- existing key: updated in place
    rcases findKeyIdx_some s k j hf with ⟨v0, hget⟩
    simp only [dictInsert, hf]
    constructor
    · rw [dkeys_entriesOf_set_some s j k v v0 hget]
      exact hnd
    · exact alookup_entriesOf_set_some s j k v v0 hget hnd

theorem foldl_dictInsert_spec {α : Type} :
    ∀ (ps : List (List Char × α)) (s : Slots α), (dkeys (entriesOf s)).Nodup →
    (dkeys (entriesOf (ps.foldl (fun s p => dictInsert s p.1 p.2) s))).Nodup
  ∧ ∀ k, alookup k (entriesOf (ps.foldl (fun s p => dictInsert s p.1 p.2) s))
        = match alookup k ps.reverse with
          | some v => some v
          | none => alookup k (entriesOf s) := by
  intro ps
  induction ps with
  | nil =>
    intro s hnd
    exact ⟨hnd, fun k => by simp [alookup]⟩
  | cons p ps ih =>
    intro s hnd
    rw [List.foldl_cons]
    have hins := dictInsert_spec s p.1 p.2 hnd
    have hih := ih (dictInsert s p.1 p.2) hins.1
    refine ⟨hih.1, fun k => ?_⟩
    rw [hih.2 k, List.reverse_cons, alookup_append]
    cases hrev : alookup k ps.reverse with
    | some v => rfl
    | none =>
      rw [hins.2 k]
      by_cases hp : p.1 = k <;> simp [alookup, hp]

theorem insertAll_nodupKeys {α : Type} (ps : List (List Char × α)) :
    (dkeys (entriesOf (insertAll ps))).Nodup :=
  (foldl_dictInsert_spec ps emptyDict (by rw [emptyDict, entriesOf_replicate_none]; exact List.nodup_nil)).1

/-- The dict built by a sequence of `d[k] = v` assignments is the map
sending each key to its LAST assigned value. -/
theorem insertAll_alookup {α : Type} (ps : List (List Char × α)) (k : List Char) :
    alookup k (entriesOf (insertAll ps)) = alookup k ps.reverse := by
  have h := (foldl_dictInsert_spec ps emptyDict
    (by rw [emptyDict, entriesOf_replicate_none]; exact List.nodup_nil)).2 k
  rw [insertAll]
  rw [h, show entriesOf (emptyDict : Slots α) = [] from entriesOf_replicate_none 8]
  cases alookup k ps.reverse with
  | some v => rfl
  | none => rfl

theorem mem_insertAll_iff {α : Type} (ps : List (List Char × α)) (k : List Char) (v : α) :
    (k, v) ∈ entriesOf (insertAll ps) ↔ alookup k ps.reverse = some v := by
  constructor
  · intro h
    rw [← insertAll_alookup]
    exact alookup_eq_some_of_mem k v _ (insertAll_nodupKeys ps) h
  · intro h
    exact mem_of_alookup_eq_some k v _ (by rw [insertAll_alookup]; exact h)

theorem mem_keysOf_insertAll {α : Type} (ps : List (List Char × α)) (k : List Char) :
    k ∈ keysOf (insertAll ps) ↔ k ∈ dkeys ps := by
  rw [keysOf_eq_dkeys]
  constructor
  · intro h
    by_contra hk
    have : alookup k (entriesOf (insertAll ps)) = none := by
      rw [insertAll_alookup, alookup_eq_none_iff]
      intro hm
      exact hk (by rw [dkeys] at hm ⊢; rw [List.map_reverse] at hm; exact List.mem_reverse.mp hm)
    exact (alookup_eq_none_iff k _).mp this h
  · intro h
    by_contra hk
    have := (alookup_eq_none_iff k (entriesOf (insertAll ps))).mpr hk
    rw [insertAll_alookup, alookup_eq_none_iff] at this
    exact this (by rw [dkeys, List.map_reverse]; exact List.mem_reverse.mpr h)

/-- Two association lists with no duplicate keys and the same lookup
function are permutations of each other. -/
theorem perm_of_alookup_eq {α : Type} [DecidableEq α] :
    ∀ (l1 l2 : List (List Char × α)), (dkeys l1).Nodup → (dkeys l2).Nodup →
    (∀ k, alookup k l1 = alookup k l2) → l1.Perm l2 := by
  intro l1
  induction l1 with
  | nil =>
    intro l2 _ hnd2 hlook
    cases l2 with
    | nil => exact List.Perm.refl _
    | cons p t =>
      have hlp := hlook p.1
      simp [alookup] at hlp
  | cons p t1 ih =>
    intro l2 hnd1 hnd2 hlook
    have hmem : p ∈ l2 := by
      have hlp := hlook p.1
      rw [alookup, if_pos rfl] at hlp
      exact mem_of_alookup_eq_some p.1 p.2 l2 hlp.symm
    rcases List.append_of_mem hmem with ⟨l2a, l2b, rfl⟩
    have hperm2 : (l2a ++ p :: l2b).Perm (p :: (l2a ++ l2b)) := List.perm_middle
    have hnd2' : (dkeys (p :: (l2a ++ l2b))).Nodup := by
      rw [dkeys]
      exact ((hperm2.map Prod.fst).nodup_iff).mp hnd2
    rw [dkeys, List.map_cons, List.nodup_cons] at hnd1 hnd2'
    refine (List.Perm.cons p (ih (l2a ++ l2b) hnd1.2 hnd2'.2 ?_)).trans hperm2.symm
    intro k
    by_cases hk : k = p.1
    · subst hk
      rw [(alookup_eq_none_iff p.1 t1).mpr hnd1.1,
        (alookup_eq_none_iff p.1 (l2a ++ l2b)).mpr hnd2'.1]
    · have h1 : alookup k (p :: t1) = alookup k t1 := by
        rw [alookup, if_neg (fun h => hk h.symm)]
      have h2 : alookup k (l2a ++ p :: l2b) = alookup k (l2a ++ l2b) := by
        rw [alookup_congr_perm _ _ hnd2 hperm2 k, alookup, if_neg (fun h => hk h.symm)]
      rw [← h1, hlook k, h2]

/-! ### Writer lemmas -/

theorem fileMember_isdir (env : Env) (p : List Char × List Char) :
    (fileMember env p).isdir = false := by
  have h14 : (fileMember env p).perm.testBit 14 = false := by
    rw [show (fileMember env p).perm = andNot 0o666 env.umask from rfl, testBit_andNot]
    rw [show Nat.testBit 0o666 14 = false by decide]
    rfl
  cases hd : (fileMember env p).isdir with
  | false => rfl
  | true => rw [(isdir_iff_testBit _).mp hd] at h14; cases h14

theorem dirMember_isdir (m : ArchiveMember) : (m.setIsdir true).isdir = true := by
  rw [(isdir_iff_testBit _)]
  rw [show (m.setIsdir true).perm = m.perm ||| 0o40111 from rfl, Nat.testBit_lor]
  rw [show Nat.testBit 0o40111 14 = true by decide]
  exact Bool.or_true _

theorem vimballBlocksOf_nil : vimballBlocksOf [] = [] := rfl

theorem vimballBlocksOf_cons_dir (m : ArchiveMember) (tl : List ArchiveMember)
    (h : m.isdir = true) : vimballBlocksOf (m :: tl) = vimballBlocksOf tl := by
  rw [vimballBlocksOf, vimballBlocksOf, List.filter_cons_of_neg (by simp [h])]

theorem vimballBlocksOf_cons_file (m : ArchiveMember) (tl : List ArchiveMember)
    (d : List Char) (h : m.isdir = false) (hd : m.data = some d) :
    vimballBlocksOf (m :: tl) = vimballBlock m.name d ++ vimballBlocksOf tl := by
  rw [vimballBlocksOf, vimballBlocksOf, List.filter_cons_of_pos (by simp [h]), List.map_cons,
    List.flatten_cons, hd, Option.getD_some]

theorem vimballAdd_eq (st : VimballWriterSt) (m : ArchiveMember) :
    vimballAdd st m =
      (let st' : VimballWriterSt := if st.headerWritten then st
        else ⟨true, st.out ++ vimballHeaderText⟩
      if m.isdir then some st'
      else match m.data with
        | none => none
        | some d => some ⟨st'.headerWritten, st'.out ++ vimballBlock m.name d⟩) := by
  rw [vimballAdd]

theorem foldlM_vimballAdd_header (ms : List ArchiveMember) :
    ∀ out : List Char, (∀ m ∈ ms, m.isdir = false → m.data ≠ none) →
    ms.foldlM vimballAdd ⟨true, out⟩ = some ⟨true, out ++ vimballBlocksOf ms⟩ := by
  induction ms with
  | nil => intro out _; simp [vimballBlocksOf]
  | cons m tl ih =>
    intro out hdata
    cases hdir : m.isdir with
    | true =>
      have hstep : vimballAdd ⟨true, out⟩ m = some ⟨true, out⟩ := by
        rw [vimballAdd_eq]
        simp [hdir]
      rw [List.foldlM_cons, hstep, vimballBlocksOf_cons_dir m tl hdir]
      exact ih out (fun m hm => hdata m (List.mem_cons_of_mem _ hm))
    | false =>
      cases hd : m.data with
      | none => exact absurd hd (hdata m (List.mem_cons_self _ _) hdir)
      | some d =>
        have hstep : vimballAdd ⟨true, out⟩ m = some ⟨true, out ++ vimballBlock m.name d⟩ := by
          rw [vimballAdd_eq]
          simp [hdir, hd]
        rw [List.foldlM_cons, hstep, vimballBlocksOf_cons_file m tl d hdir hd,
          ← List.append_assoc]
        exact ih (out ++ vimballBlock m.name d) (fun m hm => hdata m (List.mem_cons_of_mem _ hm))

/-- For a nonempty sequence of `add` calls whose file members carry data,
the bytes written are the three-line header followed by the block of each
file member in order (directories contribute no block but do trigger the
header). -/
theorem vimballWriteAll_eq (ms : List ArchiveMember) (hne : ms ≠ [])
    (hdata : ∀ m ∈ ms, m.isdir = false → m.data ≠ none) :
    vimballWriteAll ms = some ⟨true, vimballHeaderText ++ vimballBlocksOf ms⟩ := by
  cases ms with
  | nil => exact absurd rfl hne
  | cons m tl =>
    cases hdir : m.isdir with
    | true =>
      have hstep : vimballAdd ⟨false, []⟩ m = some ⟨true, vimballHeaderText⟩ := by
        rw [vimballAdd_eq]
        simp [hdir]
      rw [vimballWriteAll, List.foldlM_cons, hstep, vimballBlocksOf_cons_dir m tl hdir]
      exact foldlM_vimballAdd_header tl vimballHeaderText
        (fun m hm => hdata m (List.mem_cons_of_mem _ hm))
    | false =>
      cases hd : m.data with
      | none => exact absurd hd (hdata m (List.mem_cons_self _ _) hdir)
      | some d =>
        have hstep : vimballAdd ⟨false, []⟩ m
            = some ⟨true, vimballHeaderText ++ vimballBlock m.name d⟩ := by
          rw [vimballAdd_eq]
          simp [hdir, hd]
        rw [vimballWriteAll, List.foldlM_cons, hstep, vimballBlocksOf_cons_file m tl d hdir hd,
          ← List.append_assoc]
        exact foldlM_vimballAdd_header tl (vimballHeaderText ++ vimballBlock m.name d)
          (fun m hm => hdata m (List.mem_cons_of_mem _ hm))

/-! ### Decimal printing parses back -/

theorem digitChar_toNat (d : Nat) (h : d < 10) : (Nat.digitChar d).toNat - 48 = d := by
  interval_cases d <;> rfl

theorem digitChar_isDigit (d : Nat) (h : d < 10) : (Nat.digitChar d).isDigit = true := by
  interval_cases d <;> rfl

theorem digitChar_ne_nl (d : Nat) (h : d < 10) : Nat.digitChar d ≠ '\n' := by
  interval_cases d <;> decide

theorem decDigitsF_lt (f : Nat) : ∀ n d, d ∈ decDigitsF f n → d < 10 := by
  induction f with
  | zero => intro n d h; simp [decDigitsF] at h
  | succ f ih =>
    intro n d h
    rw [decDigitsF] at h
    by_cases hn : n = 0
    · rw [if_pos hn] at h
      simp at h
    · rw [if_neg hn] at h
      rcases List.mem_cons.mp h with h | h
      · subst h
        exact Nat.mod_lt n (by norm_num)
      · exact ih _ _ h

theorem decValAux_append (l1 l2 : List Char) (acc : Nat) :
    decValAux (l1 ++ l2) acc = decValAux l2 (decValAux l1 acc) := by
  induction l1 generalizing acc with
  | nil => rfl
  | cons c t ih => rw [List.cons_append, decValAux, decValAux, ih]

theorem decValAux_decDigitsF (f : Nat) : ∀ n acc, n ≤ f →
    decValAux (((decDigitsF f n).map Nat.digitChar).reverse) acc
      = acc * 10 ^ (decDigitsF f n).length + n := by
  induction f with
  | zero =>
    intro n acc h
    interval_cases n
    simp [decDigitsF, decValAux]
  | succ f ih =>
    intro n acc h
    by_cases hn : n = 0
    · subst hn
      simp [decDigitsF, decValAux]
    · rw [decDigitsF, if_neg hn, List.map_cons, List.reverse_cons, decValAux_append,
        ih (n / 10) acc (by omega)]
      rw [decValAux, decValAux, digitChar_toNat (n % 10) (Nat.mod_lt n (by norm_num))]
      rw [List.length_cons, pow_succ]
      have := Nat.div_add_mod n 10
      ring_nf
      omega

theorem decVal_natToDec (n : Nat) : decVal (natToDec n) = n := by
  rw [natToDec]
  by_cases hn : n = 0
  · rw [if_pos hn, hn]
    rfl
  · rw [if_neg hn, decVal, decValAux_decDigitsF n n 0 le_rfl]
    simp

theorem natToDec_isDigit (n : Nat) : pyIsDigit (natToDec n) = true := by
  rw [natToDec]
  by_cases hn : n = 0
  · rw [if_pos hn]
    rfl
  · rw [if_neg hn, pyIsDigit, Bool.and_eq_true]
    constructor
    · rcases Nat.exists_eq_succ_of_ne_zero hn with ⟨m, rfl⟩
      rw [decDigitsF, if_neg hn]
      simp
    · rw [List.all_eq_true]
      intro c hc
      rw [List.mem_reverse, List.mem_map] at hc
      rcases hc with ⟨d, hd, rfl⟩
      exact digitChar_isDigit d (decDigitsF_lt n n d hd)

theorem natToDec_ne_nl (n : Nat) : '\n' ∉ natToDec n := by
  rw [natToDec]
  by_cases hn : n = 0
  · rw [if_pos hn]
    decide
  · rw [if_neg hn]
    intro hm
    rw [List.mem_reverse, List.mem_map] at hm
    rcases hm with ⟨d, hd, hdc⟩
    exact digitChar_ne_nl d (decDigitsF_lt n n d hd) hdc

/-! ### Readline and content consumption -/

theorem readline_line (l rest : List Char) (h : '\n' ∉ l) :
    readline (l ++ '\n' :: rest) = (l ++ ['\n'], rest) := by
  induction l with
  | nil => rfl
  | cons c t ih =>
    have hc : ¬ c = '\n' := fun he => h (he ▸ List.mem_cons_self _ _)
    simp only [List.cons_append, readline, if_neg hc, List.append_eq,
      ih (fun hm => h (List.mem_cons_of_mem _ hm))]

theorem readline_mem_append (c rest : List Char) (h : '\n' ∈ c) :
    readline (c ++ rest) = ((readline c).1, (readline c).2 ++ rest) := by
  induction c with
  | nil => simp at h
  | cons a t ih =>
    by_cases ha : a = '\n'
    · subst ha
      simp [readline]
    · have ht : '\n' ∈ t := by
        rcases List.mem_cons.mp h with h | h
        · exact absurd h.symm ha
        · exact h
      simp only [List.cons_append, readline, if_neg ha, List.append_eq, ih ht]

theorem readline_fst_decomp (c : List Char) (h : '\n' ∈ c) :
    ∃ l, (readline c).1 = l ++ ['\n'] ∧ '\n' ∉ l ∧ c = l ++ '\n' :: (readline c).2 := by
  induction c with
  | nil => simp at h
  | cons a t ih =>
    by_cases ha : a = '\n'
    · subst ha
      exact ⟨[], by simp [readline]⟩
    · have ht : '\n' ∈ t := by
        rcases List.mem_cons.mp h with h | h
        · exact absurd h.symm ha
        · exact h
      rcases ih ht with ⟨l, h1, h2, h3⟩
      refine ⟨a :: l, ?_, ?_, ?_⟩
      · simp only [readline, if_neg ha, h1, List.cons_append]
      · intro hm
        rcases List.mem_cons.mp hm with hm | hm
        · exact ha hm.symm
        · exact h2 hm
      · simp only [readline, if_neg ha, List.cons_append]
        exact congrArg (a :: ·) h3

theorem mem_of_getLast?_eq (l : List Char) (a : Char) (h : l.getLast? = some a) : a ∈ l := by
  induction l with
  | nil => simp at h
  | cons x t ih =>
    cases t with
    | nil =>
      simp only [List.getLast?_singleton, Option.some_inj] at h
      subst h
      exact List.mem_cons_self _ _
    | cons y u =>
      rw [List.getLast?_cons_cons] at h
      exact List.mem_cons_of_mem _ (ih h)

theorem readNLines_content (len : Nat) : ∀ (c rest : List Char), c.length ≤ len →
    c ≠ [] → c.getLast? = some '\n' →
    readNLines (countNl c) (c ++ rest) = some (c, rest) := by
  induction len with
  | zero =>
    intro c rest hlen hne _
    exact absurd (List.eq_nil_of_length_eq_zero (by omega)) hne
  | succ len ih =>
    intro c rest hlen hne hlast
    have hmem : '\n' ∈ c := mem_of_getLast?_eq c '\n' hlast
    rcases readline_fst_decomp c hmem with ⟨l, h1, h2, h3⟩
    have hcnt : countNl c = countNl (readline c).2 + 1 := by
      rw [countNl, countNl]
      nth_rewrite 1 [h3]
      rw [List.count_append, List.count_cons_self, List.count_eq_zero.mpr h2]
      omega
    have happ : c ++ rest = l ++ '\n' :: ((readline c).2 ++ rest) := by
      conv_lhs => rw [h3]
      rw [List.append_assoc, List.cons_append]
    have key : readNLines (countNl (readline c).2 + 1) (l ++ '\n' :: ((readline c).2 ++ rest))
        = match readNLines (countNl (readline c).2) ((readline c).2 ++ rest) with
          | some q => some ((l ++ ['\n']) ++ q.1, q.2)
          | none => none := by
      simp only [readNLines, readline_line l _ h2]
      rw [if_neg (by simp)]
    rw [hcnt, happ, key]
    by_cases hr : (readline c).2 = []
    · rw [hr] at h3
      rw [hr]
      rw [show countNl [] = 0 from rfl, readNLines, h3]
      simp
    · have hlen' : (readline c).2.length ≤ len := by
        have hl3 := congrArg List.length h3
        simp only [List.length_append, List.length_cons] at hl3
        omega
      obtain ⟨y, ys, hys⟩ := List.exists_cons_of_ne_nil hr
      have hrlast : (readline c).2.getLast? = some '\n' := by
        rw [h3, hys, List.getLast?_append, List.getLast?_cons_cons] at hlast
        rcases hgy : (y :: ys).getLast? with _ | a
        · rw [List.getLast?_eq_none_iff] at hgy
          exact absurd hgy (by simp)
        · rw [hgy] at hlast
          rw [show (some a).or l.getLast? = some a from rfl] at hlast
          rw [hys, hgy]
          exact hlast
      rw [ih (readline c).2 rest hlen' hr hrlast]
      conv_rhs => rw [h3]
      simp

/-! ### Block parsing -/

theorem isPrefixOf_append_self (l1 l2 : List Char) : l1.isPrefixOf (l1 ++ l2) = true := by
  induction l1 with
  | nil => simp [List.isPrefixOf]
  | cons a t ih => simp [List.isPrefixOf, ih]

theorem isSuffixOf_append (l1 l2 : List Char) : l2.isSuffixOf (l1 ++ l2) = true := by
  rw [List.isSuffixOf, List.reverse_append]
  exact isPrefixOf_append_self l2.reverse l1.reverse

theorem dropWhile_nl_of_not_mem (l : List Char) (h : '\n' ∉ l) :
    l.dropWhile (· = '\n') = l := by
  cases l with
  | nil => rfl
  | cons a t =>
    rw [List.dropWhile_cons, if_neg]
    simp only [decide_eq_true_eq]
    exact fun he => h (he ▸ List.mem_cons_self _ _)

theorem rstripNl_append_nl (l : List Char) (h : '\n' ∉ l) : rstripNl (l ++ ['\n']) = l := by
  rw [rstripNl, List.reverse_append,
    show (['\n'] : List Char).reverse ++ l.reverse = '\n' :: l.reverse from rfl,
    List.dropWhile_cons, if_pos (by decide),
    dropWhile_nl_of_not_mem l.reverse (fun hm => h (List.mem_reverse.mp hm)),
    List.reverse_reverse]

theorem parseBlocks_step (f : Nat) (n c rest : List Char)
    (hn : '\n' ∉ n) (hcne : c ≠ []) (hclast : c.getLast? = some '\n') :
    parseBlocks (f+1) ((n ++ "\t[[[1".toList) ++ '\n' :: (natToDec (countNl c) ++ '\n' :: (c ++ rest)))
      = match parseBlocks f rest with
        | .ok bs => .ok ((n, c) :: bs)
        | .error e => .error e := by
  have hnl1 : '\n' ∉ n ++ "\t[[[1".toList := by
    intro hm
    rcases List.mem_append.mp hm with hm | hm
    · exact hn hm
    · exact (by decide : ('\n' : Char) ∉ "\t[[[1".toList) hm
  simp only [parseBlocks, readline_line _ _ hnl1,
    readline_line _ _ (natToDec_ne_nl (countNl c))]
  rw [if_neg (by simp)]
  rw [show (n ++ "\t[[[1".toList) ++ ['\n'] = n ++ vimFileMarker from by
    rw [List.append_assoc]
    rfl]
  rw [if_pos (isSuffixOf_append n vimFileMarker)]
  rw [show (n ++ vimFileMarker).length - 6 = n.length from by
    simp [vimFileMarker]]
  rw [List.take_left, rstripNl_append_nl _ (natToDec_ne_nl (countNl c)),
    if_pos (natToDec_isDigit (countNl c)), decVal_natToDec,
    readNLines_content c.length c rest le_rfl hcne hclast]

theorem parseBlocks_blockListBytes (bs : List (List Char × List Char)) :
    ∀ f : Nat, (∀ p ∈ bs, '\n' ∉ p.1 ∧ p.2 ≠ [] ∧ p.2.getLast? = some '\n') →
    (blockListBytes bs).length < f →
    parseBlocks f (blockListBytes bs) = .ok bs := by
  induction bs with
  | nil =>
    intro f _ hf
    cases f with
    | zero => omega
    | succ f => rfl
  | cons b bs ih =>
    intro f hwf hf
    rcases hwf b (List.mem_cons_self _ _) with ⟨hn, hcne, hclast⟩
    have h0 : blockListBytes (b :: bs)
        = (b.1 ++ vimFileMarker ++ natToDec (countNl b.2) ++ ['\n'] ++ b.2)
          ++ blockListBytes bs := by
      rw [blockListBytes, List.map_cons, List.flatten_cons]
      rfl
    have hbytes : blockListBytes (b :: bs)
        = (b.1 ++ "\t[[[1".toList)
          ++ '\n' :: (natToDec (countNl b.2) ++ '\n' :: (b.2 ++ blockListBytes bs)) := by
      rw [h0, show vimFileMarker = "\t[[[1".toList ++ ['\n'] from rfl]
      simp [List.append_assoc]
    have hlen : (blockListBytes bs).length < f - 1 := by
      have := congrArg List.length hbytes
      simp only [List.length_append, List.length_cons] at this
      omega
    cases f with
    | zero => omega
    | succ f =>
      rw [hbytes, parseBlocks_step f b.1 b.2 (blockListBytes bs) hn hcne hclast]
      rw [ih f (fun p hp => hwf p (List.mem_cons_of_mem _ hp)) (by omega)]

theorem alookup_reverse {α : Type} (l : List (List Char × α))
    (hnd : (dkeys l).Nodup) (k : List Char) : alookup k l.reverse = alookup k l := by
  have hndr : (dkeys l.reverse).Nodup := by
    rw [dkeys, List.map_reverse]
    exact (List.nodup_reverse).mpr hnd
  cases h : alookup k l with
  | some v =>
    exact alookup_eq_some_of_mem k v _ hndr
      (List.mem_reverse.mpr (mem_of_alookup_eq_some k v l h))
  | none =>
    rw [alookup_eq_none_iff] at h ⊢
    intro hm
    exact h (by rw [dkeys, List.map_reverse, List.mem_reverse] at hm; exact hm)

/-- The three-line header consumes exactly itself in the preamble loop:
the third header line is `"finish\n"`, where the loop stops. -/
theorem skipPreamble_header (f : Nat) (rest : List Char) :
    skipPreamble (f + 3) (vimballHeaderText ++ rest) = rest := rfl

theorem vimballBlock_of_nl (n d : List Char) (h : d.getLast? = some '\n') :
    vimballBlock n d = n ++ vimFileMarker ++ natToDec (countNl d) ++ ['\n'] ++ d := by
  simp [vimballBlock, h]

theorem vimballBlocksOf_fileMembers (env : Env) (tree : List (List Char × List Char))
    (h : ∀ p ∈ tree, p.2.getLast? = some '\n') :
    vimballBlocksOf (tree.map (fileMember env)) = blockListBytes tree := by
  induction tree with
  | nil => rfl
  | cons p t ih =>
    rw [List.map_cons,
      vimballBlocksOf_cons_file (fileMember env p) _ p.2 (fileMember_isdir env p) rfl,
      ih (fun q hq => h q (List.mem_cons_of_mem _ hq)),
      show (fileMember env p).name = p.1 from rfl,
      vimballBlock_of_nl p.1 p.2 (h p (List.mem_cons_self _ _))]
    rw [show blockListBytes (p :: t)
        = (p.1 ++ vimFileMarker ++ natToDec (countNl p.2) ++ ['\n'] ++ p.2)
          ++ blockListBytes t from by
      rw [blockListBytes, List.map_cons, List.flatten_cons]
      rfl]

theorem runVimballReader_header_blocks (env : Env) (bs : List (List Char × List Char))
    (hwf : ∀ p ∈ bs, '\n' ∉ p.1 ∧ p.2 ≠ [] ∧ p.2.getLast? = some '\n') :
    runVimballReader env (vimballHeaderText ++ blockListBytes bs)
      = .ok ((List.insertionSort (· ≤ ·)
            (keysOf (insertAll (bs.map (fun p => (pyDirname p.1, ())))))).map
            (fun d => (mkArchiveMember env d).setIsdir true)
          ++ (entriesOf (insertAll bs)).map
            (fun p => { mkArchiveMember env p.1 with data := some p.2 })) := by
  have hsk : skipPreamble ((vimballHeaderText ++ blockListBytes bs).length + 1)
      (vimballHeaderText ++ blockListBytes bs) = blockListBytes bs := by
    have h3 : (vimballHeaderText ++ blockListBytes bs).length + 1
        = ((blockListBytes bs).length + vimballHeaderText.length - 2) + 3 := by
      have h2 : 2 ≤ vimballHeaderText.length := by decide
      simp only [List.length_append]
      omega
    rw [h3, skipPreamble_header]
  simp only [runVimballReader]
  rw [hsk, parseBlocks_blockListBytes bs ((blockListBytes bs).length + 1) hwf (by omega)]

theorem runVimballReader_ok_elim (env : Env) (input : List Char) (ms : List ArchiveMember)
    (h : runVimballReader env input = .ok ms) :
    ∃ bs, parseBlocks ((skipPreamble (input.length + 1) input).length + 1)
        (skipPreamble (input.length + 1) input) = .ok bs
      ∧ ms = (List.insertionSort (· ≤ ·)
            (keysOf (insertAll (bs.map (fun p => (pyDirname p.1, ())))))).map
            (fun d => (mkArchiveMember env d).setIsdir true)
          ++ (entriesOf (insertAll bs)).map
            (fun p => { mkArchiveMember env p.1 with data := some p.2 }) := by
  simp only [runVimballReader] at h
  split at h
  · exact absurd h (by simp)
  · next bs hbs =>
      refine ⟨bs, hbs, ?_⟩
      injection h with h
      exact h.symm

/-! ### Claim C1 -/

/-- C1 as stated is false: a file whose content lacks a trailing newline
comes back with one appended. The tree `{a/b.txt ↦ "hi"}` serializes,
parses back, and the file member's content is `"hi\n"`, not `"hi"`. -/
theorem vimball_roundtrip_newline_counterexample :
    vimballWriteAll [fileMember env0 ("a/b.txt".toList, "hi".toList)]
      = some ⟨true, vimballHeaderText ++ "a/b.txt\t[[[1\n1\nhi\n".toList⟩
  ∧ runVimballReader env0 (vimballHeaderText ++ "a/b.txt\t[[[1\n1\nhi\n".toList)
      = .ok [(mkArchiveMember env0 "a".toList).setIsdir true,
             { mkArchiveMember env0 "a/b.txt".toList with data := some "hi\n".toList }]
  ∧ "hi\n".toList ≠ "hi".toList := by decide

/-- C1 (amended): for every directory tree whose file names contain no
newline and whose contents each end with a newline, serializing with the
Vimball writer and parsing back yields file members that are a
permutation of the tree: every file's name and byte-exact content is
reproduced. (Contents without a trailing newline are reproduced with one
appended, as the counterexample shows.) -/
theorem vimball_roundtrip (env : Env) (tree : List (List Char × List Char))
    (hnd : (dkeys tree).Nodup)
    (hnames : ∀ p ∈ tree, '\n' ∉ p.1)
    (hcontents : ∀ p ∈ tree, p.2 ≠ [] ∧ p.2.getLast? = some '\n') :
    ∃ st ms, vimballWriteAll (tree.map (fileMember env)) = some st
      ∧ runVimballReader env st.out = .ok ms
      ∧ ((ms.filter (fun m => !m.isdir)).map (fun m => (m.name, m.data))).Perm
          (tree.map (fun p => (p.1, some p.2))) := by
  cases tree with
  | nil => exact ⟨⟨false, []⟩, [], rfl, rfl, by simp⟩
  | cons b tl =>
    have hne : (b :: tl).map (fileMember env) ≠ [] := by simp
    have hdata : ∀ m ∈ (b :: tl).map (fileMember env), m.isdir = false → m.data ≠ none := by
      intro m hm _
      rcases List.mem_map.mp hm with ⟨p, _, rfl⟩
      simp [fileMember]
    have hW := vimballWriteAll_eq ((b :: tl).map (fileMember env)) hne hdata
    have hblocks := vimballBlocksOf_fileMembers env (b :: tl)
      (fun p hp => (hcontents p hp).2)
    have hwf : ∀ p ∈ (b :: tl), '\n' ∉ p.1 ∧ p.2 ≠ [] ∧ p.2.getLast? = some '\n' :=
      fun p hp => ⟨hnames p hp, (hcontents p hp).1, (hcontents p hp).2⟩
    have hrun := runVimballReader_header_blocks env (b :: tl) hwf
    refine ⟨⟨true, vimballHeaderText ++ vimballBlocksOf ((b :: tl).map (fileMember env))⟩,
      _, hW, by rw [show (⟨true, vimballHeaderText
          ++ vimballBlocksOf ((b :: tl).map (fileMember env))⟩ : VimballWriterSt).out
          = vimballHeaderText ++ vimballBlocksOf ((b :: tl).map (fileMember env)) from rfl,
        hblocks]; exact hrun, ?_⟩
    rw [List.filter_append,
      List.filter_eq_nil_iff.mpr (by
        intro m hm
        rcases List.mem_map.mp hm with ⟨d, _, rfl⟩
        simp [dirMember_isdir]),
      List.filter_eq_self.mpr (by
        intro m hm
        rcases List.mem_map.mp hm with ⟨p, _, rfl⟩
        rw [show ({ mkArchiveMember env p.1 with data := some p.2 } : ArchiveMember)
            = fileMember env p from rfl, fileMember_isdir]
        rfl),
      List.nil_append, List.map_map]
    have hperm : (entriesOf (insertAll (b :: tl))).Perm (b :: tl) :=
      perm_of_alookup_eq _ _ (insertAll_nodupKeys _) hnd
        (fun k => (insertAll_alookup _ k).trans (alookup_reverse _ hnd k))
    exact hperm.map _

theorem vimball_roundtrip_witness :
    ((dkeys [(['a'], ['x', '\n'])]).Nodup
      ∧ (∀ p ∈ [(['a'], ['x', '\n'])], '\n' ∉ p.1)
      ∧ (∀ p ∈ [(['a'], ['x', '\n'])], p.2 ≠ [] ∧ p.2.getLast? = some '\n'))
  ∧ (∃ st ms, vimballWriteAll ([(['a'], ['x', '\n'])].map (fileMember env0)) = some st
      ∧ runVimballReader env0 st.out = .ok ms
      ∧ ((ms.filter (fun m => !m.isdir)).map (fun m => (m.name, m.data))).Perm
          ([(['a'], ['x', '\n'])].map (fun p => (p.1, some p.2)))) :=
  ⟨⟨by decide, by decide, by decide⟩,
    vimball_roundtrip env0 [(['a'], ['x', '\n'])] (by decide) (by decide) (by decide)⟩

/-! ### Claim C2 -/

/-- C2 as stated is false: file members are yielded in the iteration
order of the CPython string dict (ascending hash-table slot), not in
block order. For blocks named `b` then `a`, the members come out `a`
then `b` (CPython 2.7 64-bit: `hash('a') & 7 = 0`, `hash('b') & 7 = 3`). -/
theorem vimball_file_order_counterexample :
    runVimballReader env0 vbOutOfOrder
      = .ok [(mkArchiveMember env0 []).setIsdir true,
             { mkArchiveMember env0 ['a'] with data := some "y\n".toList },
             { mkArchiveMember env0 ['b'] with data := some "x\n".toList }]
  ∧ vbOutOfOrder
      = "finish\n".toList ++ "b\t[[[1\n1\nx\n".toList ++ "a\t[[[1\n1\ny\n".toList
  ∧ [(['a'] : List Char), ['b']] ≠ [['b'], ['a']] := by decide

/-- C2 (amended): for every well-formed Vimball input, the reader yields,
after all directory members, exactly one file member per distinct
file-block name, carrying the content of the last block with that name;
the members' order is the hash table's iteration order, which need not be
the order the blocks appeared in the stream. -/
theorem vimball_reader_file_members (env : Env) (input : List Char)
    (ms : List ArchiveMember) (bs : List (List Char × List Char))
    (hok : runVimballReader env input = .ok ms)
    (hbs : parseBlocks ((skipPreamble (input.length + 1) input).length + 1)
        (skipPreamble (input.length + 1) input) = .ok bs) :
    ∃ ds fs, ms = ds ++ fs
      ∧ (∀ m ∈ ds, m.isdir = true)
      ∧ (∀ m ∈ fs, m.isdir = false)
      ∧ (fs.map (fun m => m.name)).Nodup
      ∧ (∀ n c, (n, some c) ∈ fs.map (fun m => (m.name, m.data))
          ↔ alookup n bs.reverse = some c) := by
  rcases runVimballReader_ok_elim env input ms hok with ⟨bs', hbs', hms⟩
  rw [hbs'] at hbs
  injection hbs with hbs
  rw [hbs] at hms
  refine ⟨_, _, hms, ?_, ?_, ?_, ?_⟩
  · intro m hm
    rcases List.mem_map.mp hm with ⟨d, _, rfl⟩
    exact dirMember_isdir _
  · intro m hm
    rcases List.mem_map.mp hm with ⟨p, _, rfl⟩
    exact fileMember_isdir env p
  · rw [List.map_map]
    exact insertAll_nodupKeys bs
  · intro n c
    rw [List.map_map]
    constructor
    · intro hmem
      rcases List.mem_map.mp hmem with ⟨q, hq, heq⟩
      have h1 : q.1 = n := congrArg Prod.fst heq
      have h2 : some q.2 = some c := congrArg Prod.snd heq
      injection h2 with h2
      subst h1
      subst h2
      exact (mem_insertAll_iff bs q.1 q.2).mp hq
    · intro hl
      exact List.mem_map.mpr ⟨(n, c), (mem_insertAll_iff bs n c).mpr hl, rfl⟩

theorem vimball_reader_file_members_witness :
    (runVimballReader env0 vbOutOfOrder
      = .ok [(mkArchiveMember env0 []).setIsdir true,
             { mkArchiveMember env0 ['a'] with data := some "y\n".toList },
             { mkArchiveMember env0 ['b'] with data := some "x\n".toList }]
    ∧ parseBlocks ((skipPreamble (vbOutOfOrder.length + 1) vbOutOfOrder).length + 1)
        (skipPreamble (vbOutOfOrder.length + 1) vbOutOfOrder)
      = .ok [(['b'], "x\n".toList), (['a'], "y\n".toList)])
  ∧ (∃ ds fs, [(mkArchiveMember env0 []).setIsdir true,
             { mkArchiveMember env0 ['a'] with data := some "y\n".toList },
             { mkArchiveMember env0 ['b'] with data := some "x\n".toList }] = ds ++ fs
      ∧ (∀ m ∈ ds, m.isdir = true)
      ∧ (∀ m ∈ fs, m.isdir = false)
      ∧ (fs.map (fun m => m.name)).Nodup
      ∧ (∀ n c, (n, some c) ∈ fs.map (fun m => (m.name, m.data))
          ↔ alookup n [(['b'], "x\n".toList), (['a'], "y\n".toList)].reverse = some c)) :=
  ⟨⟨by decide, by decide⟩,
    vimball_reader_file_members env0 vbOutOfOrder _ _ (by decide) (by decide)⟩

/-! ### Claims C8 and C10 -/

theorem pyDirname_eq_nil (p : List Char) (h : '/' ∉ p) : pyDirname p = [] := by
  have hf : p.reverse.findIdx? (· = '/') = none := by
    rw [List.findIdx?_eq_none_iff]
    intro a ha
    rw [decide_eq_false_iff_not]
    exact fun he => h (he ▸ List.mem_reverse.mp ha)
  simp [pyDirname, hf]

/-- The name of a directory member produced by the reader is the key it
was built from, and the name of a file member is the file's name. -/
theorem dirMember_name (env : Env) (d : List Char) :
    ((mkArchiveMember env d).setIsdir true).name = d := rfl

/-- C8: for every well-formed Vimball input, the reader yields first the
directory members — exactly the deduplicated parent directory components
of the file names, sorted lexicographically, each marked as a
directory — and only then the file members. -/
theorem vimball_reader_dirs_sorted (env : Env) (input : List Char)
    (ms : List ArchiveMember) (hok : runVimballReader env input = .ok ms) :
    ∃ ds fs, ms = ds ++ fs
      ∧ (∀ m ∈ ds, m.isdir = true)
      ∧ (∀ m ∈ fs, m.isdir = false)
      ∧ List.Sorted (· ≤ ·) (ds.map (fun m => m.name))
      ∧ (ds.map (fun m => m.name)).Nodup
      ∧ (∀ d, d ∈ ds.map (fun m => m.name)
          ↔ d ∈ fs.map (fun m => pyDirname m.name)) := by
  rcases runVimballReader_ok_elim env input ms hok with ⟨bs, hbs, hms⟩
  have hmapid : ∀ (l : List (List Char)),
      (l.map (fun d => ((mkArchiveMember env d).setIsdir true).name)) = l := by
    intro l
    rw [show (fun d => ((mkArchiveMember env d).setIsdir true).name)
        = (id : List Char → List Char) from funext (fun d => rfl), List.map_id]
  refine ⟨_, _, hms, ?_, ?_, ?_, ?_, ?_⟩
  · intro m hm
    rcases List.mem_map.mp hm with ⟨d, _, rfl⟩
    exact dirMember_isdir _
  · intro m hm
    rcases List.mem_map.mp hm with ⟨p, _, rfl⟩
    exact fileMember_isdir env p
  · rw [List.map_map]
    rw [show ((fun m : ArchiveMember => m.name)
        ∘ fun d => (mkArchiveMember env d).setIsdir true)
        = (fun d => ((mkArchiveMember env d).setIsdir true).name) from rfl, hmapid]
    exact List.sorted_insertionSort _ _
  · rw [List.map_map]
    rw [show ((fun m : ArchiveMember => m.name)
        ∘ fun d => (mkArchiveMember env d).setIsdir true)
        = (fun d => ((mkArchiveMember env d).setIsdir true).name) from rfl, hmapid]
    exact ((List.perm_insertionSort _ _).nodup_iff).mpr (insertAll_nodupKeys _)
  · intro d
    rw [List.map_map, List.map_map]
    rw [show ((fun m : ArchiveMember => m.name)
        ∘ fun d => (mkArchiveMember env d).setIsdir true)
        = (fun d => ((mkArchiveMember env d).setIsdir true).name) from rfl, hmapid]
    rw [(List.perm_insertionSort (· ≤ ·) _).mem_iff]
    constructor
    · intro hd
      have hmem := (mem_keysOf_insertAll _ d).mp hd
      rw [dkeys, List.map_map] at hmem
      rcases List.mem_map.mp hmem with ⟨p, hp, hpd⟩
      have hp1 : p.1 ∈ keysOf (insertAll bs) :=
        (mem_keysOf_insertAll bs p.1).mpr (List.mem_map.mpr ⟨p, hp, rfl⟩)
      rcases List.mem_map.mp hp1 with ⟨q, hq, hq1⟩
      refine List.mem_map.mpr ⟨q, hq, ?_⟩
      show pyDirname q.1 = d
      rw [hq1]
      exact hpd
    · intro hd
      rcases List.mem_map.mp hd with ⟨q, hq, hqd⟩
      have hq1 : q.1 ∈ dkeys bs :=
        (mem_keysOf_insertAll bs q.1).mp (List.mem_map.mpr ⟨q, hq, rfl⟩)
      rcases List.mem_map.mp hq1 with ⟨p, hp, hp1⟩
      apply (mem_keysOf_insertAll _ d).mpr
      rw [dkeys, List.map_map]
      refine List.mem_map.mpr ⟨p, hp, ?_⟩
      show pyDirname p.1 = d
      rw [hp1]
      exact hqd

theorem vimball_reader_dirs_sorted_witness :
    runVimballReader env0 vbTopLevel
      = .ok [(mkArchiveMember env0 []).setIsdir true,
             { mkArchiveMember env0 ['f'] with data := some "x\n".toList }]
  ∧ (∃ ds fs, [(mkArchiveMember env0 []).setIsdir true,
             { mkArchiveMember env0 ['f'] with data := some "x\n".toList }] = ds ++ fs
      ∧ (∀ m ∈ ds, m.isdir = true)
      ∧ (∀ m ∈ fs, m.isdir = false)
      ∧ List.Sorted (· ≤ ·) (ds.map (fun m => m.name))
      ∧ (ds.map (fun m => m.name)).Nodup
      ∧ (∀ d, d ∈ ds.map (fun m => m.name)
          ↔ d ∈ fs.map (fun m => pyDirname m.name))) :=
  ⟨by decide, vimball_reader_dirs_sorted env0 vbTopLevel _ (by decide)⟩

/-- C10: a well-formed Vimball containing a file block whose path has no
directory separator makes the reader yield a directory member whose name
is the EMPTY string (`os.path.dirname` of a bare filename), marked as a
directory, before all file members. -/
theorem vimball_reader_empty_dirname (env : Env) (input : List Char)
    (ms : List ArchiveMember) (m : ArchiveMember)
    (hok : runVimballReader env input = .ok ms)
    (hm : m ∈ ms) (hfile : m.isdir = false) (hslash : '/' ∉ m.name) :
    ∃ ds fs, ms = ds ++ fs
      ∧ (∀ x ∈ ds, x.isdir = true)
      ∧ (∀ x ∈ fs, x.isdir = false)
      ∧ ∃ dm ∈ ds, dm.name = ([] : List Char) ∧ dm.isdir = true := by
  rcases runVimballReader_ok_elim env input ms hok with ⟨bs, hbs, hms⟩
  subst hms
  have hdirs : ∀ x ∈ (List.insertionSort (· ≤ ·)
      (keysOf (insertAll (bs.map (fun p => (pyDirname p.1, ())))))).map
      (fun d => (mkArchiveMember env d).setIsdir true), x.isdir = true := by
    intro x hx
    rcases List.mem_map.mp hx with ⟨d, _, rfl⟩
    exact dirMember_isdir _
  have hfiles : ∀ x ∈ (entriesOf (insertAll bs)).map
      (fun p => ({ mkArchiveMember env p.1 with data := some p.2 } : ArchiveMember)),
      x.isdir = false := by
    intro x hx
    rcases List.mem_map.mp hx with ⟨p, _, rfl⟩
    exact fileMember_isdir env p
  refine ⟨_, _, rfl, hdirs, hfiles, ?_⟩
  have hmF : m ∈ (entriesOf (insertAll bs)).map
      (fun p => ({ mkArchiveMember env p.1 with data := some p.2 } : ArchiveMember)) := by
    rcases List.mem_append.mp hm with h | h
    · rw [hdirs m h] at hfile
      cases hfile
    · exact h
  rcases List.mem_map.mp hmF with ⟨q, hq, rfl⟩
  have hq1 : q.1 ∈ dkeys bs :=
    (mem_keysOf_insertAll bs q.1).mp (List.mem_map.mpr ⟨q, hq, rfl⟩)
  rcases List.mem_map.mp hq1 with ⟨p, hp, hp1⟩
  have hdn : pyDirname p.1 = [] := by
    rw [hp1]
    exact pyDirname_eq_nil q.1 hslash
  have hnil : ([] : List Char) ∈ keysOf (insertAll (bs.map (fun p => (pyDirname p.1, ())))) := by
    apply (mem_keysOf_insertAll _ _).mpr
    rw [dkeys, List.map_map]
    exact List.mem_map.mpr ⟨p, hp, hdn⟩
  refine ⟨(mkArchiveMember env []).setIsdir true, ?_, rfl, dirMember_isdir _⟩
  exact List.mem_map.mpr ⟨[], (List.perm_insertionSort (· ≤ ·) _).mem_iff.mpr hnil, rfl⟩

theorem vimball_reader_empty_dirname_witness :
    (runVimballReader env0 vbTopLevel
      = .ok [(mkArchiveMember env0 []).setIsdir true,
             { mkArchiveMember env0 ['f'] with data := some "x\n".toList }]
    ∧ ({ mkArchiveMember env0 ['f'] with data := some "x\n".toList } : ArchiveMember).isdir
        = false
    ∧ '/' ∉ ({ mkArchiveMember env0 ['f'] with data := some "x\n".toList } : ArchiveMember).name)
  ∧ (∃ ds fs, [(mkArchiveMember env0 []).setIsdir true,
             { mkArchiveMember env0 ['f'] with data := some "x\n".toList }] = ds ++ fs
      ∧ (∀ x ∈ ds, x.isdir = true)
      ∧ (∀ x ∈ fs, x.isdir = false)
      ∧ ∃ dm ∈ ds, dm.name = ([] : List Char) ∧ dm.isdir = true) :=
  ⟨⟨by decide, by decide, by decide⟩,
    vimball_reader_empty_dirname env0 vbTopLevel
      [(mkArchiveMember env0 []).setIsdir true,
       { mkArchiveMember env0 ['f'] with data := some "x\n".toList }]
      { mkArchiveMember env0 ['f'] with data := some "x\n".toList }
      (by decide) (by decide) (by decide) (by decide)⟩

/-! ### Claim C3 -/

/-- C3: the writer's byte output. On a nonempty sequence of `add` calls
(whose file members carry data, as Python would otherwise raise) the
bytes are the three-line header, emitted exactly once — even when the
first member is a directory that is then skipped — followed by, for each
file member in order, the line `<name>\t[[[1`, a decimal newline count of
the content (with a trailing newline appended when absent), then the
content. In particular `a/b.txt ↦ "hi"` yields the header then
`a/b.txt\t[[[1\n1\nhi\n`, and a lone directory member yields just the
header. -/
theorem vimball_writer_bytes :
    (∀ ms : List ArchiveMember, ms ≠ [] → (∀ m ∈ ms, m.isdir = false → m.data ≠ none) →
      vimballWriteAll ms = some ⟨true, vimballHeaderText ++ vimballBlocksOf ms⟩)
  ∧ vimballWriteAll [fileMember env0 ("a/b.txt".toList, "hi".toList)]
      = some ⟨true, vimballHeaderText ++ "a/b.txt\t[[[1\n1\nhi\n".toList⟩
  ∧ vimballWriteAll [(mkArchiveMember env0 ['d']).setIsdir true]
      = some ⟨true, vimballHeaderText⟩ :=
  ⟨vimballWriteAll_eq, by decide, by decide⟩

theorem vimball_writer_bytes_witness :
    (([fileMember env0 (['x'], ['y', '\n'])] : List ArchiveMember) ≠ []
      ∧ (∀ m ∈ [fileMember env0 (['x'], ['y', '\n'])], m.isdir = false → m.data ≠ none))
  ∧ vimballWriteAll [fileMember env0 (['x'], ['y', '\n'])]
      = some ⟨true, vimballHeaderText ++ vimballBlocksOf [fileMember env0 (['x'], ['y', '\n'])]⟩ :=
  ⟨⟨by decide, by decide⟩,
    vimball_writer_bytes.1 [fileMember env0 (['x'], ['y', '\n'])] (by decide) (by decide)⟩

end Vba2Zip
